import Mathlib

/-!
# Verification of the BTIS pipeline (`scripts/btis.py`)

Shallow embedding of the numeric core of the BTIS updater: Wilder RSI,
the `normalize` scaling primitive, the missing-data-tolerant weighted
mean, the log-price percentile, and the component/composite pipeline.
Python floats are modelled by an arbitrary linear ordered field
(instantiated at `ℚ` for executable checks and at `ℝ` where `math.log`
is involved); `None` is modelled by `Option`.
-/

namespace Btis

variable {α : Type*} [LinearOrderedField α]

/-- Day-over-day changes `values[i] - values[i-1]`, as built by the loop
`for i in range(1, len(values))` in `rsi`. -/
def deltas : List α → List α
  | a :: b :: rest => (b - a) :: deltas (b :: rest)
  | _ => []

/-- The Wilder smoothing loop of `rsi` (`for i in range(period, len(gains))`):
walks the remaining (gain, loss) pairs, updating the running averages with
`avg = (avg*(period-1) + current) / period` and recording
`100 - 100/(1 + rs)` at each step, where `rs = avg_gain/avg_loss`; when
`avg_loss == 0` Python sets `rs = inf`, for which `100 - 100/(1+rs)`
evaluates to `100`, embedded here as the `avg_loss = 0` branch. -/
def rsiFold (period : ℕ) : List (α × α) → α → α → List α
  | [], _, _ => []
  | (g, l) :: rest, avg_gain, avg_loss =>
      let ag := (avg_gain * ((period : α) - 1) + g) / (period : α)
      let al := (avg_loss * ((period : α) - 1) + l) / (period : α)
      (if al = 0 then 100 else 100 - 100 / (1 + ag / al)) :: rsiFold period rest ag al

/-- `rsi(values, period)`: classic Wilder RSI.  Gains are `max(change, 0)`,
losses are `abs(min(change, 0))`; with fewer than `period` changes the
result is `None`; otherwise the averages are seeded as simple means of the
first `period` gains/losses, the smoothing loop runs over the rest, and
the last recorded RSI is returned (`rsis[-1] if rsis else None`). -/
def rsi (values : List α) (period : ℕ) : Option α :=
  let ds := deltas values
  let gains := ds.map fun c => max c 0
  let losses := ds.map fun c => |min c 0|
  if gains.length < period then none
  else
    let avg_gain := (gains.take period).sum / (period : α)
    let avg_loss := (losses.take period).sum / (period : α)
    (rsiFold period ((gains.drop period).zip (losses.drop period)) avg_gain avg_loss).getLast?

/-- `normalize(value, lo, hi, clip)`: `None` propagates, `hi == lo` yields
`0`, otherwise `100*(value-lo)/(hi-lo)`, clipped into `[0, 100]` via
`max(0, min(100, x))` when `clip` is set. -/
def normalize (value : Option α) (lo hi : α) (clip : Bool) : Option α :=
  match value with
  | none => none
  | some v =>
      if hi = lo then some 0
      else
        let x := 100 * (v - lo) / (hi - lo)
        some (if clip then max 0 (min 100 x) else x)

/-- The filtering comprehension of `weighted_mean`:
`[(v,w) for v,w in pairs if v is not None and w > 0]`. -/
def survivors (pairs : List (Option α × α)) : List (α × α) :=
  pairs.filterMap fun p =>
    match p.1 with
    | none => none
    | some v => if 0 < p.2 then some (v, p.2) else none

/-- `weighted_mean(pairs)`: drop absent values and non-positive weights;
`None` when nothing survives, else `sum(v*w)/sum(w)` over the survivors. -/
def weighted_mean (pairs : List (Option α × α)) : Option α :=
  let vals := survivors pairs
  if vals = [] then none
  else some ((vals.map fun p => p.1 * p.2).sum / (vals.map fun p => p.2).sum)

/-- Python's `min` over a list (total, with junk value `0` on `[]`,
where Python would raise). -/
def listMin : List α → α
  | [] => 0
  | [a] => a
  | a :: b :: rest => min a (listMin (b :: rest))

/-- Python's `max` over a list (total, with junk value `0` on `[]`,
where Python would raise). -/
def listMax : List α → α
  | [] => 0
  | [a] => a
  | a :: b :: rest => max a (listMax (b :: rest))

/-- The log-price percentile of `compute_components`:
`logs = [log(p) for p in prices if p > 0]` and
`pct = normalize(log(last_price), min(logs), max(logs))` with
`last_price = prices[-1]`.  The logarithm is passed in as a parameter
(`Real.log` in the actual pipeline). -/
def logPct (lg : α → α) (prices : List α) : Option α :=
  let logs := (prices.filter fun p => 0 < p).map lg
  normalize (some (lg (prices.getLastD 0))) (listMin logs) (listMax logs) true

/-- The weight table of `compute_btis` (`0.20, 0.25, 0.20, 0.20, 0.15`). -/
def weightsTable (name : String) : α :=
  if name = "RSI(14)" then 1 / 5
  else if name = "MVRV Z-Score" then 1 / 4
  else if name = "Fear & Greed" then 1 / 5
  else if name = "Price vs Log Range" then 1 / 5
  else if name = "Funding Rate (8h %)" then 3 / 20
  else 0

/-- `compute_components`, as a function of the fetched inputs
(price history, Fear & Greed value, optional funding rate, optional
MVRV Z-score), restricted to the `(name, normalized)` data of each
indicator record.  `prices[-250:]` is `drop (length - 250)`;
`rsi(..., period=14)`; funding is normalized over `0.0 .. 0.10`, MVRV
over `0.0 .. 9.0`; Fear & Greed passes through as fetched. -/
def compute_components (lg : α → α) (prices : List α) (feargreed : α)
    (funding : Option α) (mvrv : Option α) : List (String × Option α) :=
  let rsi_val := rsi (prices.drop (prices.length - 250)) 14
  let pct := logPct lg prices
  let funding_norm := funding.bind fun f => normalize (some f) 0 (1 / 10) true
  let mvrv_norm := mvrv.bind fun z => normalize (some z) 0 9 true
  [("RSI(14)", normalize rsi_val 30 80 true),
   ("MVRV Z-Score", mvrv_norm),
   ("Fear & Greed", some feargreed),
   ("Price vs Log Range", pct),
   ("Funding Rate (8h %)", funding_norm)]

/-- `compute_btis(components)`: look up each component's weight and take
the `weighted_mean` of the `(normalized, weight)` pairs. -/
def compute_btis (components : List (String × Option α)) : Option α :=
  weighted_mean (components.map fun comp => (comp.2, weightsTable comp.1))

/-! ## Helper lemmas -/

theorem deltas_length (values : List α) : (deltas values).length = values.length - 1 := by
  induction values with
  | nil => rfl
  | cons a t ih =>
      cases t with
      | nil => rfl
      | cons b r =>
          simp only [deltas, List.length_cons] at ih ⊢
          omega

@[simp] theorem rsiFold_nil (period : ℕ) (ag al : α) : rsiFold period [] ag al = [] := rfl

theorem rsiFold_cons (period : ℕ) (g l ag al : α) (rest : List (α × α)) :
    rsiFold period ((g, l) :: rest) ag al =
      (if (al * ((period : α) - 1) + l) / (period : α) = 0 then 100
       else 100 - 100 / (1 + ((ag * ((period : α) - 1) + g) / (period : α)) /
         ((al * ((period : α) - 1) + l) / (period : α)))) ::
      rsiFold period rest ((ag * ((period : α) - 1) + g) / (period : α))
        ((al * ((period : α) - 1) + l) / (period : α)) := rfl

theorem rsiFold_length (period : ℕ) (xs : List (α × α)) (ag al : α) :
    (rsiFold period xs ag al).length = xs.length := by
  induction xs generalizing ag al with
  | nil => rfl
  | cons p rest ih =>
      obtain ⟨g, l⟩ := p
      rw [rsiFold_cons, List.length_cons, List.length_cons, ih]

/-- Heads of the smoothing loop are all `100` once the running loss average
is `0` and every remaining loss is `0`. -/
theorem rsiFold_eq_100 (period : ℕ) (xs : List (α × α)) :
    ∀ ag : α, (∀ p ∈ xs, p.2 = 0) → ∀ x ∈ rsiFold period xs ag 0, x = 100 := by
  induction xs with
  | nil => simp
  | cons p rest ih =>
      obtain ⟨g, l⟩ := p
      intro ag h
      have hl : l = 0 := h (g, l) (by simp)
      subst hl
      rw [rsiFold_cons]
      simp only [zero_mul, zero_add, zero_div, if_pos rfl]
      intro x hx
      rcases List.mem_cons.mp hx with rfl | hx
      · rfl
      · exact ih ((ag * ((period : α) - 1) + g) / (period : α))
          (fun p hp => h p (List.mem_cons_of_mem _ hp)) x hx

/-- Every value the smoothing loop emits lies in `[0, 100]` as long as the
running averages and the remaining gains/losses are nonnegative. -/
theorem rsiFold_mem_bounds (period : ℕ) (hp : 1 ≤ period) (xs : List (α × α)) :
    ∀ ag al : α, (∀ p ∈ xs, 0 ≤ p.1 ∧ 0 ≤ p.2) → 0 ≤ ag → 0 ≤ al →
      ∀ x ∈ rsiFold period xs ag al, 0 ≤ x ∧ x ≤ 100 := by
  induction xs with
  | nil => simp
  | cons p rest ih =>
      obtain ⟨g, l⟩ := p
      intro ag al hxs hag hal
      have hg : 0 ≤ g := (hxs (g, l) (by simp)).1
      have hl : 0 ≤ l := (hxs (g, l) (by simp)).2
      have hpc : (0 : α) < (period : α) := by exact_mod_cast hp
      have hp1 : (0 : α) ≤ (period : α) - 1 := by
        have h1 : (1 : α) ≤ (period : α) := by exact_mod_cast hp
        linarith
      have hag' : 0 ≤ (ag * ((period : α) - 1) + g) / (period : α) :=
        div_nonneg (add_nonneg (mul_nonneg hag hp1) hg) hpc.le
      have hal' : 0 ≤ (al * ((period : α) - 1) + l) / (period : α) :=
        div_nonneg (add_nonneg (mul_nonneg hal hp1) hl) hpc.le
      rw [rsiFold_cons]
      intro x hx
      rcases List.mem_cons.mp hx with rfl | hx
      · set ag2 := (ag * ((period : α) - 1) + g) / (period : α) with hag2
        set al2 := (al * ((period : α) - 1) + l) / (period : α) with hal2
        by_cases h0 : al2 = 0
        · rw [if_pos h0]
          constructor <;> norm_num
        · rw [if_neg h0]
          have halpos : 0 < al2 := lt_of_le_of_ne hal' (Ne.symm h0)
          have hrs : 0 ≤ ag2 / al2 := div_nonneg hag' halpos.le
          have h1 : (0 : α) < 1 + ag2 / al2 := by linarith
          have h2 : 100 / (1 + ag2 / al2) ≤ 100 := by
            rw [div_le_iff₀ h1]
            have := mul_nonneg (by norm_num : (0 : α) ≤ 100) hrs
            linarith
          have h3 : 0 < 100 / (1 + ag2 / al2) := div_pos (by norm_num) h1
          constructor <;> linarith
      · exact ih ((ag * ((period : α) - 1) + g) / (period : α))
          ((al * ((period : α) - 1) + l) / (period : α))
          (fun q hq => hxs q (List.mem_cons_of_mem _ hq)) hag' hal' x hx

theorem getLast?_all {β : Type*} {l : List β} {a : β} (hne : l ≠ []) (h : ∀ x ∈ l, x = a) :
    l.getLast? = some a := by
  induction l with
  | nil => exact absurd rfl hne
  | cons b t ih =>
      cases t with
      | nil => simpa using h b (by simp)
      | cons c r =>
          rw [List.getLast?_cons_cons]
          exact ih (by simp) fun x hx => h x (List.mem_cons_of_mem _ hx)

theorem deltas_replicate (n : ℕ) (c : α) :
    deltas (List.replicate n c) = List.replicate (n - 1) 0 := by
  induction n with
  | zero => rfl
  | succ m ih =>
      cases m with
      | zero => rfl
      | succ k =>
          have h2 : List.replicate (k + 1 + 1) c = c :: c :: List.replicate k c := by
            simp [List.replicate_succ]
          have h3 : c :: List.replicate k c = List.replicate (k + 1) c := by
            simp [List.replicate_succ]
          rw [h2]
          simp only [deltas, sub_self]
          rw [h3, ih]
          simp [List.replicate_succ]

theorem deltas_pos_of_chain : ∀ {values : List α}, List.Chain' (· < ·) values →
    ∀ d ∈ deltas values, 0 < d
  | [], _, d, hd => by simp [deltas] at hd
  | [_], _, d, hd => by simp [deltas] at hd
  | a :: b :: rest, h, d, hd => by
      rw [List.chain'_cons] at h
      simp only [deltas, List.mem_cons] at hd
      rcases hd with rfl | hd
      · linarith [h.1]
      · exact deltas_pos_of_chain h.2 d hd

/-- If the series is long enough and never falls day-over-day, every loss is
zero, the loss average stays `0` through the whole walk, and the final RSI is
exactly `100` (Python's infinite-`RS` branch at every step). -/
theorem rsi_eq_100_of_deltas_nonneg (values : List α) (h16 : 16 ≤ values.length)
    (hd : ∀ d ∈ deltas values, 0 ≤ d) : rsi values 14 = some 100 := by
  have hlen : (deltas values).length = values.length - 1 := deltas_length values
  have hloss : ∀ x ∈ (deltas values).map fun c => |min c 0|, x = (0 : α) := by
    intro x hx
    rcases List.mem_map.mp hx with ⟨d, hdmem, rfl⟩
    rw [min_eq_right (hd d hdmem), abs_zero]
  simp only [rsi]
  rw [if_neg (by rw [List.length_map, hlen]; omega)]
  have havg : ((((deltas values).map fun c => |min c 0|).take 14).sum : α) / ((14 : ℕ) : α)
      = 0 := by
    rw [List.sum_eq_zero fun x hx => hloss x (List.mem_of_mem_take hx), zero_div]
  rw [havg]
  refine getLast?_all ?_ ?_
  · rw [← List.length_pos, rsiFold_length, List.length_zip, List.length_drop,
      List.length_drop, List.length_map, List.length_map, hlen]
    omega
  · exact rsiFold_eq_100 14 _ _ fun p hp =>
      hloss p.2 (List.mem_of_mem_drop (List.of_mem_zip hp).2)

/-- A clipped `normalize` always lands in `[0, 100]` when it produces a value. -/
theorem normalize_some_bounds {value : Option α} {lo hi y : α}
    (h : normalize value lo hi true = some y) : 0 ≤ y ∧ y ≤ 100 := by
  cases value with
  | none => simp [normalize] at h
  | some v =>
      simp only [normalize] at h
      by_cases he : hi = lo
      · rw [if_pos he] at h
        obtain rfl := Option.some.inj h
        constructor <;> norm_num
      · rw [if_neg he] at h
        simp only [if_true] at h
        obtain rfl := Option.some.inj h
        exact ⟨le_max_left 0 _, max_le (by norm_num) (min_le_left _ _)⟩

theorem mem_survivors_spec {pairs : List (Option α × α)} {q : α × α}
    (hq : q ∈ survivors pairs) : (some q.1, q.2) ∈ pairs ∧ 0 < q.2 := by
  rcases List.mem_filterMap.mp hq with ⟨p, hp, hfp⟩
  obtain ⟨v, w⟩ := p
  cases v with
  | none => simp at hfp
  | some v =>
      simp only at hfp
      by_cases hw : 0 < w
      · rw [if_pos hw] at hfp
        obtain rfl := Option.some.inj hfp
        exact ⟨hp, hw⟩
      · rw [if_neg hw] at hfp
        cases hfp

theorem survivors_ne_nil {pairs : List (Option α × α)} {v w : α}
    (hmem : (some v, w) ∈ pairs) (hw : 0 < w) : survivors pairs ≠ [] := by
  have hvw : (v, w) ∈ survivors pairs :=
    List.mem_filterMap.mpr ⟨(some v, w), hmem, by simp [hw]⟩
  exact List.ne_nil_of_mem hvw

theorem weighted_mean_eq_none_iff (pairs : List (Option α × α)) :
    weighted_mean pairs = none ↔ survivors pairs = [] := by
  simp only [weighted_mean]
  split
  · next h => simp [h]
  · next h => simp [h]

/-- The weighted mean of values that are each in `[0, 100]` is in `[0, 100]`. -/
theorem weighted_mean_bounds {pairs : List (Option α × α)}
    (h : ∀ p ∈ pairs, ∀ x, p.1 = some x → 0 ≤ x ∧ x ≤ 100) :
    ∀ b, weighted_mean pairs = some b → 0 ≤ b ∧ b ≤ 100 := by
  intro b hb
  simp only [weighted_mean] at hb
  by_cases hs : survivors pairs = []
  · rw [if_pos hs] at hb; cases hb
  · rw [if_neg hs] at hb
    obtain rfl := Option.some.inj hb
    have hq : ∀ q ∈ survivors pairs, (0 ≤ q.1 ∧ q.1 ≤ 100) ∧ 0 < q.2 := by
      intro q hqmem
      obtain ⟨hpmem, hw⟩ := mem_survivors_spec hqmem
      exact ⟨h _ hpmem q.1 rfl, hw⟩
    have hden : 0 < ((survivors pairs).map fun p => p.2).sum := by
      apply List.sum_pos
      · intro w hwmem
        rcases List.mem_map.mp hwmem with ⟨q, hqmem, rfl⟩
        exact (hq q hqmem).2
      · simpa using hs
    have hnum0 : 0 ≤ ((survivors pairs).map fun p => p.1 * p.2).sum := by
      apply List.sum_nonneg
      intro x hxmem
      rcases List.mem_map.mp hxmem with ⟨q, hqmem, rfl⟩
      exact mul_nonneg (hq q hqmem).1.1 (hq q hqmem).2.le
    have hnum1 : ((survivors pairs).map fun p => p.1 * p.2).sum
        ≤ 100 * ((survivors pairs).map fun p => p.2).sum := by
      rw [← List.sum_map_mul_left]
      apply List.sum_le_sum
      intro q hqmem
      exact mul_le_mul_of_nonneg_right (hq q hqmem).1.2 (hq q hqmem).2.le
    exact ⟨div_nonneg hnum0 hden.le, by rw [div_le_iff₀ hden]; exact hnum1⟩

theorem listMin_all {l : List α} {a : α} (hne : l ≠ []) (h : ∀ x ∈ l, x = a) :
    listMin l = a := by
  induction l with
  | nil => exact absurd rfl hne
  | cons b t ih =>
      cases t with
      | nil => simpa [listMin] using h b (by simp)
      | cons c r =>
          rw [show listMin (b :: c :: r) = min b (listMin (c :: r)) from rfl,
            ih (by simp) fun x hx => h x (List.mem_cons_of_mem _ hx),
            h b (by simp), min_self]

theorem listMax_all {l : List α} {a : α} (hne : l ≠ []) (h : ∀ x ∈ l, x = a) :
    listMax l = a := by
  induction l with
  | nil => exact absurd rfl hne
  | cons b t ih =>
      cases t with
      | nil => simpa [listMax] using h b (by simp)
      | cons c r =>
          rw [show listMax (b :: c :: r) = max b (listMax (c :: r)) from rfl,
            ih (by simp) fun x hx => h x (List.mem_cons_of_mem _ hx),
            h b (by simp), max_self]

theorem getLastD_mem {β : Type*} {l : List β} (d : β) (hne : l ≠ []) : l.getLastD d ∈ l := by
  rw [List.getLastD_eq_getLast?, List.getLast?_eq_getLast_of_ne_nil hne, Option.getD_some]
  exact List.getLast_mem hne

/-- Scaling every weight by a positive constant leaves the surviving set
unchanged up to the same scaling. -/
theorem survivors_scale (pairs : List (Option α × α)) (c : α) (hc : 0 < c) :
    survivors (pairs.map fun p => (p.1, c * p.2)) =
      (survivors pairs).map fun q => (q.1, c * q.2) := by
  simp only [survivors, List.filterMap_map, List.map_filterMap]
  apply List.filterMap_congr
  intro p _
  obtain ⟨v, w⟩ := p
  cases v with
  | none => rfl
  | some v =>
      show (if 0 < c * w then some (v, c * w) else none)
        = (if 0 < w then some (v, w) else none).map fun q => (q.1, c * q.2)
      by_cases hw : 0 < w
      · rw [if_pos hw, if_pos (show (0 : α) < c * w from mul_pos hc hw)]
        rfl
      · rw [if_neg hw, if_neg fun hcw => hw ((mul_pos_iff_of_pos_left hc).mp hcw)]
        rfl

theorem sum_map_as_scaled (s : List (α × α)) (c : α) :
    (s.map fun q => q.1 * (c * q.2)).sum = c * (s.map fun q => q.1 * q.2).sum := by
  rw [← List.sum_map_mul_left]
  apply congrArg List.sum
  apply List.map_congr_left
  intro q _
  ring

set_option maxRecDepth 4000 in
/-- Bounds for every produced component value (under the adapter contract
that the fetched sentiment value is already on the 0–100 scale). -/
theorem compute_components_bounds (lg : α → α) (prices : List α) (fg : α)
    (funding mvrv : Option α) (h0 : 0 ≤ fg) (h1 : fg ≤ 100) :
    ∀ c ∈ compute_components lg prices fg funding mvrv, ∀ x, c.2 = some x →
      0 ≤ x ∧ x ≤ 100 := by
  intro c hc x hx
  simp only [compute_components, List.mem_cons, List.not_mem_nil, or_false] at hc
  rcases hc with rfl | rfl | rfl | rfl | rfl
  · exact normalize_some_bounds hx
  · rcases Option.bind_eq_some.mp hx with ⟨z, _, hnz⟩
    exact normalize_some_bounds hnz
  · obtain rfl := Option.some.inj hx
    exact ⟨h0, h1⟩
  · simp only [logPct] at hx
    exact normalize_some_bounds hx
  · rcases Option.bind_eq_some.mp hx with ⟨f, _, hnf⟩
    exact normalize_some_bounds hnf

@[simp] theorem weightsTable_rsi : (weightsTable "RSI(14)" : α) = 1 / 5 := by
  simp [weightsTable]

@[simp] theorem weightsTable_mvrv : (weightsTable "MVRV Z-Score" : α) = 1 / 4 := by
  simp [weightsTable]

@[simp] theorem weightsTable_feargreed : (weightsTable "Fear & Greed" : α) = 1 / 5 := by
  simp [weightsTable]

@[simp] theorem weightsTable_logrange : (weightsTable "Price vs Log Range" : α) = 1 / 5 := by
  simp [weightsTable]

@[simp] theorem weightsTable_funding : (weightsTable "Funding Rate (8h %)" : α) = 3 / 20 := by
  simp [weightsTable]

/-! ## Claim theorems -/

/-- C1 (amended): `rsi(values, period=14)` returns a computed value exactly
when the series has at least `period + 2 = 16` points, i.e. at least
`period + 1` day-over-day changes; with at most `period` changes (in
particular with exactly `period + 1` points) it returns `None`, never a
number. -/
theorem rsi_some_iff_length (values : List ℚ) :
    (rsi values 14).isSome ↔ 16 ≤ values.length := by
  simp only [rsi]
  by_cases hlen : ((deltas values).map fun c => max c 0).length < 14
  · rw [if_pos hlen]
    rw [List.length_map, deltas_length] at hlen
    simp only [Option.isSome_none, Bool.false_eq_true, false_iff]
    omega
  · rw [if_neg hlen]
    rw [List.length_map, deltas_length] at hlen
    rw [List.getLast?_isSome, ← List.length_pos, rsiFold_length, List.length_zip,
      List.length_drop, List.length_drop, List.length_map, List.length_map, deltas_length]
    omega

/-- C1 counterexample: a series of exactly `period + 1 = 15` points (hence
exactly `period = 14` day-over-day changes) on which `rsi` returns `None`,
although the claim promises a computed value for every series of length at
least `period + 1`. -/
theorem rsi_none_at_fifteen :
    rsi (List.replicate 15 (1:ℚ)) 14 = none
      ∧ 14 + 1 ≤ (List.replicate 15 (1:ℚ)).length := by
  constructor
  · norm_num [rsi, deltas_replicate]
  · simp

/-- C6: for every series on which `rsi(values, period=14)` returns a value,
that value lies in `[0, 100]` inclusive. -/
theorem rsi_within_bounds (values : List ℚ) (r : ℚ) (h : rsi values 14 = some r) :
    0 ≤ r ∧ r ≤ 100 := by
  simp only [rsi] at h
  by_cases hlen : ((deltas values).map fun c => max c 0).length < 14
  · rw [if_pos hlen] at h; cases h
  · rw [if_neg hlen] at h
    refine rsiFold_mem_bounds 14 (by norm_num) _ _ _ ?_ ?_ ?_ r (List.mem_of_mem_getLast? h)
    · intro p hp
      obtain ⟨h1, h2⟩ := List.of_mem_zip hp
      constructor
      · rcases List.mem_map.mp (List.mem_of_mem_drop h1) with ⟨d, _, hd⟩
        rw [← hd]
        exact le_max_right d 0
      · rcases List.mem_map.mp (List.mem_of_mem_drop h2) with ⟨d, _, hd⟩
        rw [← hd]
        exact abs_nonneg _
    · refine div_nonneg (List.sum_nonneg ?_) (Nat.cast_nonneg 14)
      intro x hx
      rcases List.mem_map.mp (List.mem_of_mem_take hx) with ⟨d, _, hd⟩
      rw [← hd]
      exact le_max_right d 0
    · refine div_nonneg (List.sum_nonneg ?_) (Nat.cast_nonneg 14)
      intro x hx
      rcases List.mem_map.mp (List.mem_of_mem_take hx) with ⟨d, _, hd⟩
      rw [← hd]
      exact abs_nonneg _

/-- C6 witness: a concrete series on which `rsi` produces `100 ∈ [0, 100]`. -/
theorem rsi_within_bounds_witness :
    rsi (List.replicate 16 (5:ℚ)) 14 = some 100 ∧ 0 ≤ (100:ℚ) ∧ (100:ℚ) ≤ 100 := by
  have h : rsi (List.replicate 16 (5:ℚ)) 14 = some 100 := by
    norm_num [rsi, deltas, rsiFold, List.replicate]
  exact ⟨h, rsi_within_bounds _ 100 h⟩

/-- C5: a flat price series that is long enough for `rsi` to compute, and a
strictly increasing series of length at least 30, both yield RSI exactly 100
(the final loss average is `0` and the infinite-`RS` rule maps to 100). -/
theorem rsi_saturates_at_100 :
    (∀ (n : ℕ) (c : ℚ), 16 ≤ n → rsi (List.replicate n c) 14 = some 100)
    ∧ ∀ values : List ℚ, 30 ≤ values.length → values.Chain' (· < ·) →
        rsi values 14 = some 100 := by
  constructor
  · intro n c h16
    refine rsi_eq_100_of_deltas_nonneg _ (by simpa using h16) ?_
    rw [deltas_replicate]
    intro d hd
    rw [List.eq_of_mem_replicate hd]
  · intro values h30 hchain
    exact rsi_eq_100_of_deltas_nonneg _ (by omega) fun d hd =>
      (deltas_pos_of_chain hchain d hd).le

/-- C5 witness: a concrete flat series of 16 points and the concrete strictly
increasing series 1..30, both evaluating to RSI = 100. -/
theorem rsi_saturates_at_100_witness :
    (16 ≤ 16 ∧ rsi (List.replicate 16 (7:ℚ)) 14 = some 100)
    ∧ (30 ≤ ([1,2,3,4,5,6,7,8,9,10,11,12,13,14,15,16,17,18,19,20,21,22,23,24,
        25,26,27,28,29,30] : List ℚ).length
      ∧ List.Chain' (· < ·) ([1,2,3,4,5,6,7,8,9,10,11,12,13,14,15,16,17,18,19,20,
        21,22,23,24,25,26,27,28,29,30] : List ℚ)
      ∧ rsi ([1,2,3,4,5,6,7,8,9,10,11,12,13,14,15,16,17,18,19,20,21,22,23,24,
        25,26,27,28,29,30] : List ℚ) 14 = some 100) := by
  have hc : List.Chain' (· < ·) ([1,2,3,4,5,6,7,8,9,10,11,12,13,14,15,16,17,18,19,20,
      21,22,23,24,25,26,27,28,29,30] : List ℚ) := by
    norm_num [List.chain'_cons]
  exact ⟨⟨le_refl 16, rsi_saturates_at_100.1 16 7 (le_refl 16)⟩,
    ⟨by simp, hc, rsi_saturates_at_100.2 _ (by simp) hc⟩⟩

/-- C2: weighted_mean drops absent-value and nonpositive-weight pairs and
averages the rest; on the spec example the absent 0.25 weight leaves the
denominator. -/
theorem weighted_mean_renormalizes :
    (∀ pairs : List (Option ℚ × ℚ),
        weighted_mean pairs =
          if survivors pairs = [] then none
          else some (((survivors pairs).map fun p => p.1 * p.2).sum
            / ((survivors pairs).map fun p => p.2).sum))
    ∧ survivors ([(some 80, 0.2), (none, 0.25), (some 60, 0.2), (some 40, 0.15)] :
        List (Option ℚ × ℚ)) = [(80, 0.2), (60, 0.2), (40, 0.15)]
    ∧ weighted_mean ([(some 80, 0.2), (none, 0.25), (some 60, 0.2), (some 40, 0.15)] :
        List (Option ℚ × ℚ)) = some (34 / 0.55) := by
  refine ⟨fun pairs => rfl, ?_, ?_⟩
  · norm_num [survivors, List.filterMap_cons]
  · norm_num [weighted_mean, survivors, List.filterMap_cons]
    intro h
    exact absurd h (List.cons_ne_nil _ _)

/-- C3: normalize propagates absence, guards hi = lo with exactly 0, else
clips the affine transform; with the spec instances. -/
theorem normalize_spec :
    (∀ (lo hi : ℚ) (clip : Bool), normalize none lo hi clip = none)
    ∧ (∀ (x lo : ℚ) (clip : Bool), normalize (some x) lo lo clip = some 0)
    ∧ (∀ x lo hi : ℚ, normalize (some x) lo hi true
        = some (if hi = lo then 0 else max 0 (min 100 (100 * (x - lo) / (hi - lo)))))
    ∧ normalize (some 150) 0 100 true = some (100:ℚ)
    ∧ normalize (some (-10)) 0 100 true = some (0:ℚ)
    ∧ normalize none 0 100 true = (none : Option ℚ) := by
  refine ⟨fun lo hi clip => rfl, ?_, ?_, ?_, ?_, rfl⟩
  · intro x lo clip
    simp [normalize]
  · intro x lo hi
    by_cases he : hi = lo
    · simp [normalize, he]
    · simp [normalize, he]
  · norm_num [normalize]
  · norm_num [normalize]

/-- C8: when every pair has an absent value (more generally when nothing
survives the filter) the mean is None, and a component list whose normalized
values are all absent makes the composite index null. -/
theorem weighted_mean_all_absent :
    (∀ pairs : List (Option ℚ × ℚ), (∀ p ∈ pairs, p.1 = none) →
        weighted_mean pairs = none)
    ∧ ∀ comps : List (String × Option ℚ), (∀ c ∈ comps, c.2 = none) →
        compute_btis comps = none := by
  have hgen : ∀ pairs : List (Option ℚ × ℚ), (∀ p ∈ pairs, p.1 = none) →
      weighted_mean pairs = none := by
    intro pairs h
    rw [weighted_mean_eq_none_iff]
    by_contra hs
    obtain ⟨q, hq⟩ := List.exists_mem_of_ne_nil _ hs
    obtain ⟨hpmem, _⟩ := mem_survivors_spec hq
    exact absurd (h _ hpmem) (by simp)
  refine ⟨hgen, fun comps h => hgen _ ?_⟩
  intro p hp
  rcases List.mem_map.mp hp with ⟨comp, hcomp, hmapped⟩
  rw [← hmapped]
  exact h comp hcomp

/-- C8 witness: concrete all-absent inputs evaluating to None. -/
theorem weighted_mean_all_absent_witness :
    ((∀ p ∈ ([(none, 1), (none, 2)] : List (Option ℚ × ℚ)), p.1 = none)
      ∧ weighted_mean ([(none, 1), (none, 2)] : List (Option ℚ × ℚ)) = none)
    ∧ ((∀ c ∈ ([("RSI(14)", none)] : List (String × Option ℚ)), c.2 = none)
      ∧ compute_btis ([("RSI(14)", none)] : List (String × Option ℚ)) = none) :=
  ⟨⟨by simp, weighted_mean_all_absent.1 _ (by simp)⟩,
   ⟨by simp, weighted_mean_all_absent.2 _ (by simp)⟩⟩

/-- C10: weighted_mean is invariant under scaling every weight by a positive
constant: only relative weights matter. -/
theorem weighted_mean_scale_invariant (pairs : List (Option ℚ × ℚ)) (c : ℚ)
    (hc : 0 < c) :
    weighted_mean (pairs.map fun p => (p.1, c * p.2)) = weighted_mean pairs := by
  simp only [weighted_mean, survivors_scale pairs c hc]
  by_cases hs : survivors pairs = []
  · rw [hs]
    simp
  · rw [if_neg hs, if_neg (by simpa using hs)]
    rw [List.map_map, List.map_map]
    have h1 : ((survivors pairs).map ((fun p => p.1 * p.2) ∘ fun q => (q.1, c * q.2))).sum
        = c * ((survivors pairs).map fun q => q.1 * q.2).sum := by
      rw [show ((fun p => p.1 * p.2) ∘ fun q : ℚ × ℚ => (q.1, c * q.2))
          = fun q : ℚ × ℚ => q.1 * (c * q.2) from rfl]
      exact sum_map_as_scaled _ c
    have h2 : ((survivors pairs).map ((fun p => p.2) ∘ fun q => (q.1, c * q.2))).sum
        = c * ((survivors pairs).map fun q => q.2).sum := by
      rw [show ((fun p => p.2) ∘ fun q : ℚ × ℚ => (q.1, c * q.2))
          = fun q : ℚ × ℚ => c * q.2 from rfl]
      exact List.sum_map_mul_left _ _ _
    rw [h1, h2, mul_div_mul_left _ _ (ne_of_gt hc)]

/-- C10 witness: a concrete pair list and scale factor 2. -/
theorem weighted_mean_scale_invariant_witness :
    0 < (2:ℚ) ∧ weighted_mean (([(some 80, 0.2), (none, 0.25)] :
        List (Option ℚ × ℚ)).map fun p => (p.1, 2 * p.2))
      = weighted_mean ([(some 80, 0.2), (none, 0.25)] : List (Option ℚ × ℚ)) :=
  ⟨by norm_num, weighted_mean_scale_invariant _ 2 (by norm_num)⟩

theorem filter_pos_eq_self {l : List α} (h : ∀ p ∈ l, 0 < p) :
    (l.filter fun p => 0 < p) = l :=
  List.filter_eq_self.mpr (by simpa using h)

/-- C7: for a non-empty history of positive prices, the log-price percentile
is the clipped min-max position of the last log-price, with the flat-history
case defined as 0 and no division fault. -/
theorem logPct_spec (prices : List ℝ) (hne : prices ≠ []) (hpos : ∀ p ∈ prices, 0 < p) :
    logPct Real.log prices =
      some (if listMax (prices.map Real.log) = listMin (prices.map Real.log) then 0
        else max 0 (min 100 (100 * (Real.log (prices.getLastD 0)
          - listMin (prices.map Real.log))
          / (listMax (prices.map Real.log) - listMin (prices.map Real.log)))))
    ∧ ((∀ p ∈ prices, ∀ q ∈ prices, p = q) → logPct Real.log prices = some 0) := by
  have hfil : (prices.filter fun p => 0 < p) = prices := filter_pos_eq_self hpos
  constructor
  · simp only [logPct, hfil, normalize]
    by_cases he : listMax (prices.map Real.log) = listMin (prices.map Real.log)
    · rw [if_pos he, if_pos he]
    · rw [if_neg he, if_neg he]
      simp
  · intro hflat
    have hne2 : prices.map Real.log ≠ [] := by simpa using hne
    have hlogs : ∀ x ∈ prices.map Real.log, x = Real.log (prices.getLastD 0) := by
      intro x hx
      rcases List.mem_map.mp hx with ⟨p, hp, hlp⟩
      rw [← hlp, hflat p hp _ (getLastD_mem 0 hne)]
    have hmm : listMax (prices.map Real.log) = listMin (prices.map Real.log) := by
      rw [listMax_all hne2 hlogs, listMin_all hne2 hlogs]
    simp only [logPct, hfil, normalize]
    rw [if_pos hmm]

/-- C7 witness: the one-element history `[1]`, flat, evaluating to 0. -/
theorem logPct_spec_witness :
    (([1] : List ℝ) ≠ [] ∧ ∀ p ∈ ([1] : List ℝ), 0 < p)
    ∧ logPct Real.log [1] = some 0 :=
  ⟨⟨by simp, by norm_num⟩, (logPct_spec [1] (by simp) (by norm_num)).2 (by simp)⟩

/-- C4 (amended): provided the fetched Fear & Greed sentiment is within
[0, 100] (as the adapter contract states), every produced component has a
normalized value that is absent or within [0, 100]. -/
theorem components_normalized_in_range (prices : List ℝ) (fg : ℝ)
    (funding mvrv : Option ℝ) (h0 : 0 ≤ fg) (h1 : fg ≤ 100) :
    ∀ c ∈ compute_components Real.log prices fg funding mvrv,
      c.2 = none ∨ ∃ x, c.2 = some x ∧ 0 ≤ x ∧ x ≤ 100 := by
  intro c hc
  cases hx : c.2 with
  | none => exact Or.inl rfl
  | some x =>
      exact Or.inr ⟨x, rfl, compute_components_bounds Real.log prices fg funding mvrv
        h0 h1 c hc x hx⟩

/-- C4 witness: a concrete run with in-range sentiment. -/
theorem components_normalized_in_range_witness :
    ((0:ℝ) ≤ 50 ∧ (50:ℝ) ≤ 100)
    ∧ ∀ c ∈ compute_components Real.log [1] 50 none none,
        c.2 = none ∨ ∃ x, c.2 = some x ∧ 0 ≤ x ∧ x ≤ 100 :=
  ⟨⟨by norm_num, by norm_num⟩,
   components_normalized_in_range [1] 50 none none (by norm_num) (by norm_num)⟩

/-- C4 counterexample: the Fear & Greed value passes through unclamped, so a
fetched sentiment of 150 yields a produced component whose normalized value
is 150 > 100, violating the claimed invariant over all fetched inputs. -/
theorem components_invariant_fails_raw_sentiment :
    ∃ c ∈ compute_components Real.log [1] 150 none none,
      ∃ x, c.2 = some x ∧ 100 < x := by
  refine ⟨("Fear & Greed", some 150), ?_, 150, rfl, by norm_num⟩
  simp [compute_components]

/-- C9 (amended): provided the fetched sentiment is within [0, 100], the
composite score is null or within [0, 100], and it is null exactly when every
component normalized value is absent. -/
theorem btis_in_range_or_null (prices : List ℝ) (fg : ℝ) (funding mvrv : Option ℝ)
    (h0 : 0 ≤ fg) (h1 : fg ≤ 100) :
    (∀ b, compute_btis (compute_components Real.log prices fg funding mvrv) = some b →
        0 ≤ b ∧ b ≤ 100)
    ∧ (compute_btis (compute_components Real.log prices fg funding mvrv) = none
        ↔ ∀ c ∈ compute_components Real.log prices fg funding mvrv, c.2 = none) := by
  have hfgmem : ("Fear & Greed", some fg)
      ∈ compute_components Real.log prices fg funding mvrv := by
    simp [compute_components]
  constructor
  · intro b hb
    refine weighted_mean_bounds ?_ b hb
    intro p hp x hx
    rcases List.mem_map.mp hp with ⟨comp, hcomp, hmapped⟩
    rw [← hmapped] at hx
    exact compute_components_bounds Real.log prices fg funding mvrv h0 h1 comp hcomp x hx
  · constructor
    · intro hnone
      rw [show compute_btis (compute_components Real.log prices fg funding mvrv)
          = weighted_mean ((compute_components Real.log prices fg funding mvrv).map
              fun comp => (comp.2, weightsTable comp.1)) from rfl,
        weighted_mean_eq_none_iff] at hnone
      exfalso
      have hmem2 : ((some fg : Option ℝ), (weightsTable "Fear & Greed" : ℝ))
          ∈ (compute_components Real.log prices fg funding mvrv).map
              fun comp => (comp.2, weightsTable comp.1) :=
        List.mem_map.mpr ⟨("Fear & Greed", some fg), hfgmem, rfl⟩
      have hwpos : (0:ℝ) < weightsTable "Fear & Greed" := by
        rw [weightsTable_feargreed]
        norm_num
      exact survivors_ne_nil hmem2 hwpos hnone
    · intro hall
      have hfg2 := hall _ hfgmem
      simp at hfg2

/-- C9 witness: a concrete run with in-range sentiment. -/
theorem btis_in_range_or_null_witness :
    ((0:ℝ) ≤ 50 ∧ (50:ℝ) ≤ 100)
    ∧ ((∀ b, compute_btis (compute_components Real.log [1] 50 none none) = some b →
        0 ≤ b ∧ b ≤ 100)
      ∧ (compute_btis (compute_components Real.log [1] 50 none none) = none
        ↔ ∀ c ∈ compute_components Real.log [1] 50 none none, c.2 = none)) :=
  ⟨⟨by norm_num, by norm_num⟩,
   btis_in_range_or_null [1] 50 none none (by norm_num) (by norm_num)⟩

/-- C9 counterexample: with an unclamped fetched sentiment of 1000 the
composite score evaluates to 500, outside [0, 100]. -/
theorem btis_escapes_range_raw_sentiment :
    compute_btis (compute_components Real.log [1] 1000 none none) = some 500
    ∧ ¬((500:ℝ) ≤ 100) := by
  have hcomp : compute_components Real.log [1] (1000:ℝ) none none
      = [("RSI(14)", none), ("MVRV Z-Score", none), ("Fear & Greed", some 1000),
         ("Price vs Log Range", some 0), ("Funding Rate (8h %)", none)] := by
    norm_num [compute_components, rsi, deltas, logPct, listMin, listMax, normalize]
  refine ⟨?_, by norm_num⟩
  rw [hcomp]
  norm_num [compute_btis, weighted_mean, survivors, List.filterMap_cons]
  intro h
  exact absurd h (List.cons_ne_nil _ _)

end Btis
